import Mathlib

/-!
Verification of the shredder core (`src/ledger/src/shredder.rs`).

The development shallowly embeds the shredder's pure logic:

* Machine integers (`u64` slots, `u32` indices, `u16` counts, `usize`
  lengths) are modelled as `Nat`; the only place where wrap-around is
  observable within the modelled input range is the `as u16` cast of the
  parent offset, which is modelled with an explicit `% 65536`.
* The shred byte layout, signing, and Merkle proofs belong to the codec
  collaborator (`crate::shred`), which is not under `src/`; shreds are
  modelled as records exposing exactly the accessor interface the
  shredder uses, per the spec's data model.  Signing is a no-op on the
  modelled fields and is therefore omitted.
* Reed-Solomon encoding/decoding is the external `reed_solomon_erasure`
  crate; parity byte contents are opaque to all claims and the decoder
  is modelled as an explicit function parameter.
* Rust panics (e.g. division by zero, failed `assert!`) are modelled by
  `Option`/`Except` failure values.
-/

namespace Agave

/-- Error kinds surfaced by the shredder core (`shred::Error` plus the
`reed_solomon_erasure::Error` variants that `try_recovery`/`deshred`
convert via `Error::from`). -/
inductive ShredError where
  | InvalidParentSlot (slot parentSlot : Nat)
  | InvalidPayloadSize (size : Nat)
  | InvalidDeshredSet
  | TooFewDataShards
  | TooFewShardsPresent
  | InvalidIndex
deriving DecidableEq, Repr

/-- Modelled from the spec: a shred is opaque to the core (the codec owns
its byte layout); it exposes the accessors of spec section 3.  Data
shreds use `flags`, `data` and `parentOffset`; code shreds use
`numDataShreds`, `numCodingShreds` and `position` (the constructors
below set the respective unused fields to `0`/`[]`). -/
structure Shred where
  slot : Nat
  index : Nat
  version : Nat
  fecSetIndex : Nat
  isData : Bool
  flags : Nat
  data : List Nat
  parentOffset : Nat
  numDataShreds : Nat
  numCodingShreds : Nat
  position : Nat
deriving DecidableEq, Repr

/-- `ShredFlags::DATA_COMPLETE_SHRED = 0b0100_0000` (bit position per
spec section 6: fixed bit positions in the flags byte). -/
def DATA_COMPLETE_SHRED : Nat := 64

/-- `ShredFlags::LAST_SHRED_IN_SLOT = 0b1100_0000`; it subsumes
`DATA_COMPLETE_SHRED` (spec section 6). -/
def LAST_SHRED_IN_SLOT : Nat := 192

/-- `flags.contains(mask)` on the bitflags byte. -/
def flagsContains (flags mask : Nat) : Bool := flags &&& mask == mask

/-- `Shred::is_code` (spec: `is_data() / is_code()`). -/
def Shred.isCode (s : Shred) : Bool := !s.isData

/-- Modelled from the spec: `last_in_slot()` is the
`LAST_SHRED_IN_SLOT` flag of a data shred; code shreds are never
last-in-slot. -/
def Shred.lastInSlot (s : Shred) : Bool :=
  s.isData && flagsContains s.flags LAST_SHRED_IN_SLOT

/-- Modelled from the spec: `erasure_shard_index()` is the position
within the FEC set: `index - fec_set_index` for a data shred (the
fec_set_index equals the index of the first data shred of the set) and
`num_data + position` for a code shred; it is fallible (`Err` modelled
as `none`). -/
def Shred.erasureShardIndex (s : Shred) : Option Nat :=
  if s.isData then
    if s.fecSetIndex ≤ s.index then some (s.index - s.fecSetIndex) else none
  else
    some (s.numDataShreds + s.position)

/-- `DATA_SHREDS_PER_FEC_BLOCK`.  Modelled from the spec: the constant
lives in `shred.rs` which is not under `src/`; the spec fixes it to 32
(planner scenarios use `min = 32`, the erasure table is calibrated to a
32:32 batch and `ERASURE_BATCH_SIZE[32] = 64 = 2·32`). -/
def DATA_SHREDS_PER_FEC_BLOCK : Nat := 32

/-- `ERASURE_BATCH_SIZE`: maps the number of data shreds to the optimal
erasure batch size with the same recovery probabilities as a 32:32
batch. -/
def ERASURE_BATCH_SIZE : List Nat :=
  [0, 18, 20, 22, 23, 25, 27, 28, 30, 32, 33, 35, 36, 38, 39, 41, 42,
   43, 45, 46, 48, 49, 51, 52, 53, 55, 56, 58, 59, 60, 62, 63, 64]

/-- `get_erasure_batch_size(num_data_shreds, is_last_in_slot)`:
`ERASURE_BATCH_SIZE.get(n).copied().unwrap_or(2 * n)`, floored at
`2 * DATA_SHREDS_PER_FEC_BLOCK` for the last batch in the slot. -/
def getErasureBatchSize (numDataShreds : Nat) (isLastInSlot : Bool) : Nat :=
  let erasureBatchSize := (ERASURE_BATCH_SIZE.get? numDataShreds).getD (2 * numDataShreds)
  if isLastInSlot then
    max erasureBatchSize (2 * DATA_SHREDS_PER_FEC_BLOCK)
  else
    erasureBatchSize

/-- The `Shredder` context struct. -/
structure Shredder where
  slot : Nat
  parentSlot : Nat
  version : Nat
  referenceTick : Nat
deriving DecidableEq, Repr

/-- `Shredder::new`: rejects `slot < parent_slot` and
`slot - parent_slot > u16::MAX`. -/
def Shredder.new (slot parentSlot referenceTick version : Nat) :
    Except ShredError Shredder :=
  if slot < parentSlot ∨ 65535 < slot - parentSlot then
    Except.error (ShredError.InvalidParentSlot slot parentSlot)
  else
    Except.ok { slot, parentSlot, referenceTick, version }

/-- One iteration's chunk size in `get_fec_set_offsets`:
`num_chunks = (num_shreds / min_chunk_size).max(1)` and
`chunk_size = num_shreds.div_ceil(num_chunks)`
(`div_ceil(q) = (… + q - 1) / q` since `num_chunks ≥ 1`). -/
def plannerChunkSize (minChunkSize numShreds : Nat) : Nat :=
  let numChunks := max (numShreds / minChunkSize) 1
  (numShreds + numChunks - 1) / numChunks

/-- Fueled body of the `std::iter::from_fn` loop in
`get_fec_set_offsets`, producing the list of `(offset, chunk_size)`
pairs the loop emits (`repeat_n(offset, chunk_size)` per iteration).
The fuel only bounds the iteration count; since every iteration removes
`chunk_size ≥ 1` shreds, `numShreds` itself is enough fuel (see
`fecChunksGo_eq`). -/
def fecChunksGoF (fuel minChunkSize numShreds offset : Nat) : List (Nat × Nat) :=
  match fuel with
  | 0 => []
  | fuel + 1 =>
    if numShreds = 0 then []
    else
      let chunkSize := plannerChunkSize minChunkSize numShreds
      (offset, chunkSize) ::
        fecChunksGoF fuel minChunkSize (numShreds - chunkSize) (offset + chunkSize)

/-- The `get_fec_set_offsets` loop from an arbitrary running offset. -/
def fecChunksGo (minChunkSize numShreds offset : Nat) : List (Nat × Nat) :=
  fecChunksGoF numShreds minChunkSize numShreds offset

/-- The `(offset, chunk_size)` pairs emitted by the
`get_fec_set_offsets(num_shreds, min_chunk_size)` loop (which starts at
`offset = 0`). -/
def fecChunks (numShreds minChunkSize : Nat) : List (Nat × Nat) :=
  fecChunksGo minChunkSize numShreds 0

/-- `get_fec_set_offsets`: flattens each `(offset, chunk_size)` pair to
`chunk_size` copies of `offset`.  With `min_chunk_size = 0` and at
least one shred the Rust loop divides by zero and panics, modelled as
`none`. -/
def getFecSetOffsets (numShreds minChunkSize : Nat) : Option (List Nat) :=
  if minChunkSize = 0 ∧ numShreds ≠ 0 then none
  else
    some ((fecChunks numShreds minChunkSize).map
      (fun c => List.replicate c.2 c.1)).flatten

/-- Fueled body of `slice::chunks(chunkSize)`; the fuel only bounds the
number of chunks, and the list's length is enough fuel (each chunk
consumes at least one element when `chunkSize ≥ 1`). -/
def chunksOfSizeF (fuel chunkSize : Nat) : List α → List (List α)
  | [] => []
  | x :: xs =>
    match fuel with
    | 0 => []
    | fuel + 1 =>
      if chunkSize = 0 then []
      else
        (x :: xs).take chunkSize :: chunksOfSizeF fuel chunkSize ((x :: xs).drop chunkSize)

/-- `slice::chunks(chunkSize)`: contiguous chunks, last one possibly
shorter.  `chunks(0)` panics in Rust; the shredder only calls it with
the codec's positive `data_buffer_size`, and the `chunkSize = 0` case
is given the junk value `[]`. -/
def chunksOfSize (chunkSize : Nat) (l : List α) : List (List α) :=
  chunksOfSizeF l.length chunkSize l

/-- The closure `make_data_shred` inside `entries_to_data_shreds`:
builds (and signs — a no-op on the modelled fields) one data shred via
the codec's `Shred::new_from_data`.  The `parent_offset as u16` cast is
the explicit `% 65536`. -/
def makeDataShred (self : Shredder) (isLastInSlot : Bool) (lastShredIndex : Nat)
    (data : List Nat) (shredIndex fecSetIndex : Nat) : Shred :=
  let flags :=
    if shredIndex ≠ lastShredIndex then 0
    else if isLastInSlot then LAST_SHRED_IN_SLOT
    else DATA_COMPLETE_SHRED
  { slot := self.slot
    index := shredIndex
    version := self.version
    fecSetIndex := fecSetIndex
    isData := true
    flags := flags
    data := data
    parentOffset := (self.slot - self.parentSlot) % 65536
    numDataShreds := 0
    numCodingShreds := 0
    position := 0 }

/-- `Shredder::entries_to_data_shreds`, taking the already-serialized
entry bytes (`bincode::serialize(entries)` is an external collaborator)
and the codec constant `dataBufferSize = ShredData::capacity(None)`
(codec-owned, not under `src/`) as parameters.  Chunks the payload,
plans FEC sets, and builds one data shred per chunk with consecutive
indices starting at `nextShredIndex`. -/
def Shredder.entriesToDataShreds (self : Shredder) (dataBufferSize : Nat)
    (serializedShreds : List Nat) (isLastInSlot : Bool) (nextShredIndex : Nat) :
    List Shred :=
  let chunks := chunksOfSize dataBufferSize serializedShreds
  let numShreds := chunks.length
  let lastShredIndex := nextShredIndex + numShreds - 1
  let fecSetOffsets :=
    ((fecChunks numShreds DATA_SHREDS_PER_FEC_BLOCK).map
      (fun c => List.replicate c.2 c.1)).flatten
  (chunks.zip fecSetOffsets).enum.map fun p =>
    makeDataShred self isLastInSlot lastShredIndex p.2.1
      (nextShredIndex + p.1) (nextShredIndex + p.2.2)

/-- One step of the `try_fold` in `Shredder::deshred`, on the state
`(data, prev, data_complete)`.  The byte-level accessors
`shred::layout::{get_index, get_data, get_flags}` are codec-owned (not
under `src/`) and modelled by the record fields; shreds are structured,
so the `InvalidPayloadSize` parse failure cannot occur in the model. -/
def deshredStep (st : List Nat × Option Nat × Bool) (shred : Shred) :
    Except ShredError (List Nat × Option Nat × Bool) :=
  if st.2.2 then Except.error ShredError.InvalidDeshredSet
  else
    match st.2.1 with
    | some prev =>
      if prev + 1 ≠ shred.index then Except.error ShredError.TooFewDataShards
      else
        Except.ok (st.1 ++ shred.data, some shred.index,
          flagsContains shred.flags DATA_COMPLETE_SHRED)
    | none =>
      Except.ok (st.1 ++ shred.data, some shred.index,
        flagsContains shred.flags DATA_COMPLETE_SHRED)

/-- `Shredder::deshred`, with the codec constant
`dataBufferSize = ShredData::capacity(None)` as a parameter (used only
by the backward-compatibility empty-buffer path). -/
def deshred (dataBufferSize : Nat) (shreds : List Shred) :
    Except ShredError (List Nat) := do
  let st ← shreds.foldlM deshredStep ([], none, false)
  if !st.2.2 then
    Except.error ShredError.TooFewDataShards
  else if st.1 = [] then
    Except.ok (List.replicate dataBufferSize 0)
  else
    Except.ok st.1

/-- A violating adjacent pair in a deshred input: the earlier shred
already carried `DATA_COMPLETE_SHRED`, or the later shred's index is
not the earlier one's plus one. -/
def deshredViol (pc : Shred × Shred) : Bool :=
  flagsContains pc.1.flags DATA_COMPLETE_SHRED || pc.2.index != pc.1.index + 1

/-- Declarative contract of `deshred` (the amended C7): scan the
adjacent pairs for the first violation; a violation where the earlier
shred carried `DATA_COMPLETE_SHRED` yields `invalid_deshred_set`
(checked first), an index discontinuity yields `too_few_data_shards`;
with no violation, the fold succeeds iff the last shred carries
`DATA_COMPLETE_SHRED` (so in particular an empty input fails), and the
concatenated data regions are returned (zero-filled buffer when
empty). -/
def deshredSpec (dataBufferSize : Nat) (shreds : List Shred) :
    Except ShredError (List Nat) :=
  match (shreds.zip shreds.tail).find? deshredViol with
  | some pc =>
    Except.error (if flagsContains pc.1.flags DATA_COMPLETE_SHRED
      then ShredError.InvalidDeshredSet else ShredError.TooFewDataShards)
  | none =>
    match shreds.getLast? with
    | none => Except.error ShredError.TooFewDataShards
    | some last =>
      if flagsContains last.flags DATA_COMPLETE_SHRED then
        if (shreds.map Shred.data).flatten = [] then
          Except.ok (List.replicate dataBufferSize 0)
        else
          Except.ok (shreds.map Shred.data).flatten
      else Except.error ShredError.TooFewDataShards

/-- First shred of the C7 counterexample: index `0`, carrying
`DATA_COMPLETE_SHRED`. -/
def cxShredA : Shred :=
  { slot := 0, index := 0, version := 0, fecSetIndex := 0, isData := true,
    flags := 64, data := [1], parentOffset := 0, numDataShreds := 0,
    numCodingShreds := 0, position := 0 }

/-- Second shred of the C7 counterexample: index `7` (discontinuous). -/
def cxShredB : Shred :=
  { slot := 0, index := 7, version := 0, fecSetIndex := 0, isData := true,
    flags := 0, data := [2], parentOffset := 0, numDataShreds := 0,
    numCodingShreds := 0, position := 0 }

/-- A lone data shred, used by the C8 witness. -/
def wDataShred : Shred :=
  { slot := 3, index := 2, version := 1, fecSetIndex := 2, isData := true,
    flags := 0, data := [9], parentOffset := 0, numDataShreds := 0,
    numCodingShreds := 0, position := 0 }

/-- A code shred advertising zero parity shreds, used by the C8
witness. -/
def wCodeShred : Shred :=
  { slot := 3, index := 10, version := 1, fecSetIndex := 2, isData := false,
    flags := 0, data := [], parentOffset := 0, numDataShreds := 5,
    numCodingShreds := 0, position := 0 }

/-- A single-group data shred (index = fec_set_index = 0, not last in
slot), used by the C3 witness. -/
def wGroupShred : Shred :=
  { slot := 2, index := 0, version := 1, fecSetIndex := 0, isData := true,
    flags := 0, data := [7], parentOffset := 0, numDataShreds := 0,
    numCodingShreds := 0, position := 0 }

/-- The 17 code shreds (`ERASURE_BATCH_SIZE[1] - 1`) the coding
shredder emits for `[wGroupShred]` with `next_code_index = 5`, used by
the C3 witness. -/
def wCodeRes : List Shred :=
  (List.range 17).map fun i =>
    { slot := 2, index := 5 + i, version := 1, fecSetIndex := 0, isData := false,
      flags := 0, data := [], parentOffset := 0, numDataShreds := 1,
      numCodingShreds := 17, position := i }

/-- `Itertools::group_by(key)` (order-preserving grouping of maximal
runs of consecutive elements with equal keys), as used in
`data_shreds_to_coding_shreds`. -/
def chunkBy (key : Shred → Nat) : List Shred → List (List Shred)
  | [] => []
  | x :: xs =>
    match chunkBy key xs with
    | [] => [[x]]
    | [] :: gs => [x] :: gs
    | (y :: g) :: gs =>
      if key x = key y then (x :: y :: g) :: gs else [x] :: (y :: g) :: gs

/-- The `is_last_in_slot` of one FEC group:
`chunk.last().copied().map(Shred::last_in_slot).unwrap_or(true)`. -/
def chunkLastInSlot (chunk : List Shred) : Bool :=
  (chunk.getLast?.map Shred.lastInSlot).getD true

/-- One FEC group's parity count:
`get_erasure_batch_size(num_data_shreds, is_last_in_slot) - num_data_shreds`
(the summand of the `scan` in `data_shreds_to_coding_shreds`). -/
def parityCount (chunk : List Shred) : Nat :=
  getErasureBatchSize chunk.length (chunkLastInSlot chunk) - chunk.length

/-- `Shredder::generate_coding_shreds(data, next_code_index, cache)`.
Panics (`unwrap`, `assert!`, `assert_eq!`, u16 casts, and the
GF(2^8) shard-count limit of the external Reed-Solomon encoder) are
modelled as `none`.  The parity byte buffers are opaque to every claim
and the external `encode_sep` is modelled as leaving them empty; each
parity buffer `i` is wrapped by the codec's
`Shred::new_from_parity_shard(slot, next_code_index + i, parity,
fec_set_index, num_data, num_coding, i, version)`. -/
def generateCodingShreds (data : List Shred) (nextCodeIndex : Nat) :
    Option (List Shred) :=
  match data with
  | [] => none
  | first :: _ =>
    if first.fecSetIndex ≠ first.index then none
    else if ¬ (data.all fun shred =>
        shred.slot == first.slot && shred.version == first.version &&
        shred.fecSetIndex == first.fecSetIndex) then none
    else if getErasureBatchSize data.length (chunkLastInSlot data) < data.length
      then none
    else if parityCount data = 0 then none
    else if 65535 < data.length ∨ 65535 < parityCount data then none
    else if 256 < data.length + parityCount data then none
    else
      some ((List.range (parityCount data)).map fun i =>
        { slot := first.slot
          index := nextCodeIndex + i
          version := first.version
          fecSetIndex := first.fecSetIndex
          isData := false
          flags := 0
          data := []
          parentOffset := 0
          numDataShreds := data.length
          numCodingShreds := parityCount data
          position := i })

/-- `Shredder::data_shreds_to_coding_shreds(keypair, data_shreds,
next_code_index, cache, stats)`: groups consecutive data shreds by
`fec_set_index`, prefix-sums the parity counts into per-group code
index bases (`iter::once(next_code_index).chain(scan ...)`, which is
`List.scanl`), and emits each group's coding shreds (the parallel and
serial branches produce the same list; signing is a no-op on the
modelled fields). -/
def dataShredsToCodingShreds (dataShreds : List Shred) (nextCodeIndex : Nat) :
    Option (List Shred) :=
  if dataShreds.isEmpty then some []
  else
    let chunks := chunkBy Shred.fecSetIndex dataShreds
    let nextCodeIndexList := List.scanl
      (fun acc chunk => acc + parityCount chunk) nextCodeIndex chunks
    ((chunks.zip nextCodeIndexList).mapM
      (fun gb => generateCodingShreds gb.1 gb.2)).map List.flatten

/-- The shard-placement loop of `try_recovery` on the state
`(mask, shards)`. -/
def recoveryStep (numDataShreds fecSetSize : Nat)
    (st : List Bool × List (Option Shred)) (shred : Shred) :
    Except ShredError (List Bool × List (Option Shred)) :=
  match shred.erasureShardIndex with
  | some index =>
    if index < fecSetSize then
      Except.ok
        ((if index < numDataShreds then st.1.set index true else st.1),
         st.2.set index (some shred))
    else Except.error ShredError.InvalidIndex
  | none => Except.error ShredError.InvalidIndex

/-- `Shredder::try_recovery(shreds, reed_solomon_cache)`.  The
Reed-Solomon decoder (`cache.get(d, p).reconstruct_data`, external
`reed_solomon_erasure` crate) is passed as the function parameter `rs`;
erasure shards and the codec's `Shred::new_from_serialized_shred`
re-parse are modelled by the shreds themselves (the shard is the byte
region from which the codec re-parses the shred). -/
def tryRecovery
    (rs : Nat → Nat → List (Option Shred) → Except ShredError (List (Option Shred)))
    (shreds : List Shred) : Except ShredError (List Shred) :=
  match shreds.head? with
  | none => Except.error ShredError.TooFewShardsPresent
  | some first =>
    let slot := first.slot
    match shreds.find? Shred.isCode with
    | none => Except.ok []
    | some codeShred =>
      let numDataShreds := codeShred.numDataShreds
      let numCodingShreds := codeShred.numCodingShreds
      let fecSetSize := numDataShreds + numCodingShreds
      if numCodingShreds = 0 ∨ fecSetSize ≤ shreds.length then Except.ok []
      else do
        let st ← shreds.foldlM (recoveryStep numDataShreds fecSetSize)
          (List.replicate numDataShreds false, List.replicate fecSetSize none)
        let shards ← rs numDataShreds numCodingShreds st.2
        Except.ok ((((st.1.zip shards).filter fun p => !p.1).filterMap
            fun p => p.2).filter fun shred =>
          shred.slot == slot && shred.isData &&
            match shred.erasureShardIndex with
            | some index => decide (index < numDataShreds)
            | none => false)

/-- The 33-entry erasure table exactly as listed in the spec (section
3, "Erasure table"). -/
def specErasureTable : List Nat :=
  [0, 18, 20, 22, 23, 25, 27, 28, 30, 32, 33, 35, 36, 38, 39, 41, 42,
   43, 45, 46, 48, 49, 51, 52, 53, 55, 56, 58, 59, 60, 62, 63, 64]

/-- The batch sizer as worded by the spec (refinement partner of
`getErasureBatchSize`): `ERASURE_BATCH_SIZE[num_data]` when
`num_data ≤ 32`, else `2 * num_data`, floored at
`2 * DATA_SHREDS_PER_FEC_BLOCK` when `is_last_in_block`. -/
def batchSizeSpec (numData : Nat) (isLastInBlock : Bool) : Nat :=
  let s := if numData ≤ 32 then (specErasureTable.get? numData).getD 0
           else 2 * numData
  if isLastInBlock then max s (2 * DATA_SHREDS_PER_FEC_BLOCK) else s

/-- Proof-side annotation of the recovered-shred pipeline
`(mask.zip(shards)).filter(|(mask, _)| !mask).filter_map(|(_, shard)| …)`
of `try_recovery`, carrying each surviving shred's shard position
(`k` is the position of the first element). -/
def annPipeline : List Bool → List (Option Shred) → Nat → List (Shred × Nat)
  | [], _, _ => []
  | _ :: _, [], _ => []
  | m :: ms, o :: os, k =>
    if m then annPipeline ms os (k + 1)
    else
      match o with
      | some s => (s, k) :: annPipeline ms os (k + 1)
      | none => annPipeline ms os (k + 1)

/-- The lone code shred of the C2 witness FEC set (`num_data = 1`,
`num_parity = 1`). -/
def wInputCode : Shred :=
  { slot := 9, index := 20, version := 0, fecSetIndex := 4, isData := false,
    flags := 0, data := [], parentOffset := 0, numDataShreds := 1,
    numCodingShreds := 1, position := 0 }

/-- The data shred the C2 witness decoder reconstructs at erasure
position 0 (`index = fec_set_index = 4`). -/
def wRecShred : Shred :=
  { slot := 9, index := 4, version := 0, fecSetIndex := 4, isData := true,
    flags := 64, data := [3], parentOffset := 0, numDataShreds := 0,
    numCodingShreds := 0, position := 0 }

/-! ## Theorems -/

/-- C4.  Batch sizer: for every `num_data` and flag `is_last_in_block`,
`batch_size(num_data, is_last_in_block)` equals
`ERASURE_BATCH_SIZE[num_data]` when `num_data ≤ 32` and `2·num_data`
otherwise, and when `is_last_in_block` is true the result is
additionally floored at `2·DATA_SHREDS_PER_FEC_BLOCK`; the table is
exactly the 33-entry constant listed in the spec. -/
theorem getErasureBatchSize_eq_spec :
    (∀ numData isLastInBlock,
      getErasureBatchSize numData isLastInBlock = batchSizeSpec numData isLastInBlock)
    ∧ ERASURE_BATCH_SIZE = specErasureTable := by
  refine ⟨fun numData isLastInBlock => ?_, rfl⟩
  by_cases hn : numData < 33
  · interval_cases numData <;> cases isLastInBlock <;> rfl
  · have h1 : ERASURE_BATCH_SIZE[numData]? = none :=
      List.getElem?_eq_none (by simp only [ERASURE_BATCH_SIZE, List.length]; omega)
    have h2 : ¬ numData ≤ 32 := by omega
    simp [getErasureBatchSize, batchSizeSpec, h1, h2]

/-- C10.  Implicit parity positivity: for every `num_data ≥ 1` and
every flag, `get_erasure_batch_size(num_data, is_last_in_slot)` is
strictly greater than `num_data`, so the checked subtraction
`batch_size - num_data` in `generate_coding_shreds` succeeds with a
strictly positive `num_coding` and the `assert!(num_coding > 0)` never
fails. -/
theorem getErasureBatchSize_gt_numData (numData : Nat) (isLastInSlot : Bool)
    (h : 1 ≤ numData) :
    numData < getErasureBatchSize numData isLastInSlot
    ∧ 0 < getErasureBatchSize numData isLastInSlot - numData := by
  have key : numData < getErasureBatchSize numData isLastInSlot := by
    by_cases hn : numData < 33
    · interval_cases numData <;> cases isLastInSlot <;> decide
    · have h1 : ERASURE_BATCH_SIZE[numData]? = none :=
        List.getElem?_eq_none (by simp only [ERASURE_BATCH_SIZE, List.length]; omega)
      cases isLastInSlot <;>
        simp [getErasureBatchSize, h1, DATA_SHREDS_PER_FEC_BLOCK] <;> omega
  exact ⟨key, by omega⟩

/-- Witness for C10 at `num_data = 1`, `is_last_in_slot = false`
(`get_erasure_batch_size(1, false) = 18 > 1`). -/
theorem getErasureBatchSize_gt_numData_witness :
    1 < getErasureBatchSize 1 false ∧ 0 < getErasureBatchSize 1 false - 1 :=
  getErasureBatchSize_gt_numData 1 false (by decide)

/-- C9.  Constructor validity: `Shredder::new(slot, parent_slot,
reference_tick, version)` fails with `invalid_parent_slot` iff
`slot < parent_slot` or `slot - parent_slot > 65535`; otherwise it
succeeds and stores the given fields unchanged. -/
theorem shredderNew_spec (slot parentSlot referenceTick version : Nat) :
    (Shredder.new slot parentSlot referenceTick version
        = Except.error (ShredError.InvalidParentSlot slot parentSlot)
      ↔ slot < parentSlot ∨ 65535 < slot - parentSlot)
    ∧ (parentSlot ≤ slot → slot - parentSlot ≤ 65535 →
        Shredder.new slot parentSlot referenceTick version
          = Except.ok { slot := slot, parentSlot := parentSlot,
                        version := version, referenceTick := referenceTick }) := by
  by_cases hc : slot < parentSlot ∨ 65535 < slot - parentSlot
  · refine ⟨⟨fun _ => hc, fun _ => ?_⟩, fun h1 h2 => absurd hc (by omega)⟩
    unfold Shredder.new
    rw [if_pos hc]
  · refine ⟨⟨fun h => ?_, fun h => absurd h hc⟩, fun _ _ => ?_⟩
    · unfold Shredder.new at h
      rw [if_neg hc] at h
      exact absurd h (by simp)
    · unfold Shredder.new
      rw [if_neg hc]

/-- Witness for C9 at `slot = 10`, `parent_slot = 7`,
`reference_tick = 3`, `version = 9`: construction succeeds and stores
the fields. -/
theorem shredderNew_spec_witness :
    Shredder.new 10 7 3 9
      = Except.ok { slot := 10, parentSlot := 7, version := 9, referenceTick := 3 } :=
  (shredderNew_spec 10 7 3 9).2 (by decide) (by decide)

/-! ### Planner lemmas -/

theorem plannerChunkSize_def (minChunkSize numShreds : Nat) :
    plannerChunkSize minChunkSize numShreds
      = (numShreds + max (numShreds / minChunkSize) 1 - 1)
          / max (numShreds / minChunkSize) 1 := rfl

theorem plannerChunkSize_pos (minChunkSize numShreds : Nat) (hn : 0 < numShreds) :
    0 < plannerChunkSize minChunkSize numShreds := by
  obtain ⟨q, hq⟩ : ∃ q, max (numShreds / minChunkSize) 1 = q := ⟨_, rfl⟩
  have hq1 : 1 ≤ q := hq ▸ le_max_right _ _
  rw [plannerChunkSize_def, hq]
  have h1 : 1 * q ≤ numShreds + q - 1 := by omega
  exact (Nat.le_div_iff_mul_le (by omega)).mpr h1

theorem plannerChunkSize_le (minChunkSize numShreds : Nat) :
    plannerChunkSize minChunkSize numShreds ≤ numShreds := by
  obtain ⟨q, hq⟩ : ∃ q, max (numShreds / minChunkSize) 1 = q := ⟨_, rfl⟩
  have hq1 : 1 ≤ q := hq ▸ le_max_right _ _
  rw [plannerChunkSize_def, hq]
  have hmul : numShreds ≤ numShreds * q := Nat.le_mul_of_pos_right numShreds (by omega)
  have h2 : numShreds + q - 1 < (numShreds + 1) * q := by
    have hx : (numShreds + 1) * q = numShreds * q + q := by ring
    omega
  exact Nat.lt_succ_iff.mp ((Nat.div_lt_iff_lt_mul (by omega)).mpr h2)

theorem plannerChunkSize_bounds (minChunkSize numShreds : Nat)
    (hmin : 0 < minChunkSize) (hn : minChunkSize ≤ numShreds) :
    minChunkSize ≤ plannerChunkSize minChunkSize numShreds
    ∧ plannerChunkSize minChunkSize numShreds < 2 * minChunkSize
    ∧ (numShreds - plannerChunkSize minChunkSize numShreds = 0
       ∨ minChunkSize ≤ numShreds - plannerChunkSize minChunkSize numShreds) := by
  obtain ⟨q, r, t, hq1, hr, hmod, hc, htle, htq⟩ :
      ∃ q r t, 1 ≤ q ∧ r < minChunkSize ∧ minChunkSize * q + r = numShreds
        ∧ plannerChunkSize minChunkSize numShreds = minChunkSize + t
        ∧ t ≤ r ∧ (q = 1 → t = r) := by
    obtain ⟨q, hq⟩ : ∃ q, numShreds / minChunkSize = q := ⟨_, rfl⟩
    obtain ⟨r, hrr⟩ : ∃ r, numShreds % minChunkSize = r := ⟨_, rfl⟩
    have hq1 : 1 ≤ q := hq ▸ (Nat.one_le_div_iff hmin).mpr hn
    have hr : r < minChunkSize := hrr ▸ Nat.mod_lt numShreds hmin
    have hmod : minChunkSize * q + r = numShreds := by
      have h0 := Nat.div_add_mod numShreds minChunkSize
      rw [hq, hrr] at h0
      exact h0
    have htle : (r + q - 1) / q ≤ r := by
      have hmul : r ≤ r * q := Nat.le_mul_of_pos_right r (by omega)
      have h2 : r + q - 1 < (r + 1) * q := by
        have hx : (r + 1) * q = r * q + q := by ring
        omega
      exact Nat.lt_succ_iff.mp ((Nat.div_lt_iff_lt_mul (by omega)).mpr h2)
    refine ⟨q, r, (r + q - 1) / q, hq1, hr, hmod, ?_, htle, ?_⟩
    · rw [plannerChunkSize_def, hq, max_eq_left hq1]
      have hcomm : minChunkSize * q = q * minChunkSize := Nat.mul_comm _ _
      have he : numShreds + q - 1 = q * minChunkSize + (r + q - 1) := by omega
      rw [he, Nat.mul_add_div (by omega)]
    · intro h1
      rw [h1]
      simp
  refine ⟨by omega, by omega, ?_⟩
  by_cases hq2 : q = 1
  · left
    have htr := htq hq2
    have hq2mul : minChunkSize * q = minChunkSize := by
      rw [hq2, Nat.mul_one]
    omega
  · right
    have hsplit : minChunkSize * q = minChunkSize * (q - 1) + minChunkSize := by
      have h1 : q - 1 + 1 = q := by omega
      calc minChunkSize * q = minChunkSize * (q - 1 + 1) := by rw [h1]
        _ = minChunkSize * (q - 1) + minChunkSize := by ring

    have hge : minChunkSize ≤ minChunkSize * (q - 1) :=
      Nat.le_mul_of_pos_right minChunkSize (by omega)
    omega

theorem fecChunksGoF_fuel_eq (fuel₁ : Nat) :
    ∀ fuel₂ minChunkSize numShreds offset, numShreds ≤ fuel₁ → numShreds ≤ fuel₂ →
      fecChunksGoF fuel₁ minChunkSize numShreds offset
        = fecChunksGoF fuel₂ minChunkSize numShreds offset := by
  induction fuel₁ with
  | zero =>
    intro fuel₂ minChunkSize numShreds offset h1 h2
    have : numShreds = 0 := by omega
    subst this
    cases fuel₂ <;> simp [fecChunksGoF]
  | succ fuel₁ ih =>
    intro fuel₂ minChunkSize numShreds offset h1 h2
    by_cases hn : numShreds = 0
    · subst hn
      cases fuel₂ <;> simp [fecChunksGoF]
    · obtain ⟨fuel₂', rfl⟩ : ∃ k, fuel₂ = k + 1 := ⟨fuel₂ - 1, by omega⟩
      have hcpos := plannerChunkSize_pos minChunkSize numShreds (by omega)
      simp only [fecChunksGoF, if_neg hn]
      exact congrArg _ (ih fuel₂' minChunkSize _ _ (by omega) (by omega))

theorem fecChunksGo_eq (minChunkSize numShreds offset : Nat) :
    fecChunksGo minChunkSize numShreds offset =
      if numShreds = 0 then []
      else
        (offset, plannerChunkSize minChunkSize numShreds) ::
          fecChunksGo minChunkSize
            (numShreds - plannerChunkSize minChunkSize numShreds)
            (offset + plannerChunkSize minChunkSize numShreds) := by
  by_cases hn : numShreds = 0
  · subst hn
    rfl
  · obtain ⟨m, rfl⟩ : ∃ m, numShreds = m + 1 := ⟨numShreds - 1, by omega⟩
    have hcpos := plannerChunkSize_pos minChunkSize (m + 1) (by omega)
    simp only [if_neg hn, fecChunksGo, fecChunksGoF, if_neg hn]
    exact congrArg _
      (fecChunksGoF_fuel_eq m _ minChunkSize _ _ (by omega) (by omega))

theorem fecChunksGo_sum (minChunkSize : Nat) (numShreds : Nat) :
    ∀ offset, ((fecChunksGo minChunkSize numShreds offset).map Prod.snd).sum
      = numShreds := by
  induction numShreds using Nat.strong_induction_on with
  | _ numShreds ih =>
    intro offset
    rw [fecChunksGo_eq]
    by_cases hn : numShreds = 0
    · simp [hn]
    · have hcpos := plannerChunkSize_pos minChunkSize numShreds (by omega)
      have hcle := plannerChunkSize_le minChunkSize numShreds
      simp only [if_neg hn, List.map_cons, List.sum_cons]
      rw [ih _ (by omega)]
      omega

theorem fecChunksGo_sizes (minChunkSize : Nat) (hmin : 0 < minChunkSize)
    (numShreds : Nat) :
    ∀ offset, minChunkSize ≤ numShreds →
      ∀ p ∈ fecChunksGo minChunkSize numShreds offset,
        minChunkSize ≤ p.2 ∧ p.2 < 2 * minChunkSize := by
  induction numShreds using Nat.strong_induction_on with
  | _ numShreds ih =>
    intro offset hge p hp
    rw [fecChunksGo_eq] at hp
    have hn : numShreds ≠ 0 := by omega
    rw [if_neg hn] at hp
    obtain ⟨h1, h2, h3⟩ := plannerChunkSize_bounds minChunkSize numShreds hmin hge
    rcases List.mem_cons.mp hp with heq | htail
    · subst heq
      exact ⟨h1, h2⟩
    · rcases h3 with h0 | hge'
      · rw [h0, fecChunksGo_eq] at htail
        simp at htail
      · have hcpos := plannerChunkSize_pos minChunkSize numShreds (by omega)
        exact ih _ (by omega) _ hge' p htail

theorem fecChunksGo_single (minChunkSize numShreds offset : Nat)
    (h1 : 0 < numShreds) (h2 : numShreds < minChunkSize) :
    fecChunksGo minChunkSize numShreds offset = [(offset, numShreds)] := by
  have hc : plannerChunkSize minChunkSize numShreds = numShreds := by
    unfold plannerChunkSize
    rw [Nat.div_eq_of_lt h2]
    simp
  rw [fecChunksGo_eq, if_neg (by omega), hc]
  rw [fecChunksGo_eq]
  simp

theorem fecChunksGo_offsets (minChunkSize : Nat) (numShreds : Nat) :
    ∀ offset i p, (fecChunksGo minChunkSize numShreds offset)[i]? = some p →
      p.1 = offset
        + (((fecChunksGo minChunkSize numShreds offset).map Prod.snd).take i).sum := by
  induction numShreds using Nat.strong_induction_on with
  | _ numShreds ih =>
    intro offset i p hp
    rw [fecChunksGo_eq] at hp ⊢
    by_cases hn : numShreds = 0
    · rw [if_pos hn] at hp
      simp at hp
    · rw [if_neg hn] at hp ⊢
      have hcpos := plannerChunkSize_pos minChunkSize numShreds (by omega)
      match i with
      | 0 =>
        simp only [List.getElem?_cons_zero, Option.some.injEq] at hp
        subst hp
        simp
      | i + 1 =>
        simp only [List.getElem?_cons_succ] at hp
        have := ih _ (by omega) _ i p hp
        simp only [List.map_cons, List.take_succ_cons, List.sum_cons]
        omega

/-- C5 (amended).  Planner chunk bounds for `min ≥ 1`: when `n ≥ min`
every chunk emitted by `offsets(n, min)` has size in `[min, 2·min)`;
when `1 ≤ n < min` a single chunk of size `n` is emitted with offset
`0`; when `n = 0` no chunk at all is emitted (the loop stops before
emitting anything, which is the one deviation from the claim); the
chunks are contiguous (each offset is the sum of the preceding chunk
sizes) and exhaustive (sizes sum to `n`, so the emitted offsets cover
every shred). -/
theorem fecSetOffsets_chunk_bounds (n min : Nat) (hmin : 1 ≤ min) :
    (min ≤ n → ∀ p ∈ fecChunks n min, min ≤ p.2 ∧ p.2 < 2 * min)
    ∧ (1 ≤ n → n < min → fecChunks n min = [(0, n)])
    ∧ (n = 0 → fecChunks n min = [])
    ∧ (∀ i p, (fecChunks n min)[i]? = some p →
        p.1 = (((fecChunks n min).map Prod.snd).take i).sum)
    ∧ ((fecChunks n min).map Prod.snd).sum = n
    ∧ getFecSetOffsets n min
        = some ((fecChunks n min).map fun c => List.replicate c.2 c.1).flatten := by
  refine ⟨fun hge p hp => fecChunksGo_sizes min hmin n 0 hge p hp,
    fun h1 h2 => fecChunksGo_single min n 0 h1 h2,
    fun h0 => by rw [h0]; rfl,
    fun i p hp => by simpa using fecChunksGo_offsets min n 0 i p hp,
    fecChunksGo_sum min n 0,
    ?_⟩
  unfold getFecSetOffsets
  rw [if_neg (by omega)]

/-- Counterexample to C5 as stated: at `n = 0`, `min = 1` we have
`n < min` but the loop emits no chunk at all, not a single chunk of
size `0` at offset `0`. -/
theorem fecSetOffsets_chunk_bounds_counterexample :
    fecChunks 0 1 = [] ∧ ([] : List (Nat × Nat)) ≠ [(0, 0)] := by
  exact ⟨rfl, by decide⟩

/-- Witness for C5 at `n = 5`, `min = 2` (chunks `[(0,3),(3,2)]`: sizes
in `[2,4)`, contiguous, exhaustive). -/
theorem fecSetOffsets_chunk_bounds_witness :
    (2 ≤ 5 → ∀ p ∈ fecChunks 5 2, 2 ≤ p.2 ∧ p.2 < 2 * 2)
    ∧ ((fecChunks 5 2).map Prod.snd).sum = 5 :=
  ⟨(fecSetOffsets_chunk_bounds 5 2 (by decide)).1,
   (fecSetOffsets_chunk_bounds 5 2 (by decide)).2.2.2.2.1⟩

/-- C6 (amended).  Planner totality: whenever `min ≥ 1` (or `n = 0`,
where no division happens), `offsets(n, min)` produces a sequence of
exactly `n` offsets and the chunk sizes sum to `n`; when `min = 0` and
`n ≥ 1` the Rust loop divides by zero and panics, producing no
sequence. -/
theorem getFecSetOffsets_totality (n min : Nat) (h : 1 ≤ min ∨ n = 0) :
    ∃ offsets, getFecSetOffsets n min = some offsets ∧ offsets.length = n
      ∧ ((fecChunks n min).map Prod.snd).sum = n := by
  rcases h with hmin | h0
  · refine ⟨_, by unfold getFecSetOffsets; rw [if_neg (by omega)], ?_, ?_⟩
    · rw [List.length_flatten, List.map_map]
      have hcomp : (List.length ∘ fun c : Nat × Nat => List.replicate c.2 c.1)
          = Prod.snd := funext fun c => by simp
      rw [hcomp]
      exact fecChunksGo_sum min n 0
    · exact fecChunksGo_sum min n 0
  · subst h0
    refine ⟨[], ?_, rfl, rfl⟩
    unfold getFecSetOffsets
    rw [if_neg (by simp)]
    rfl

/-- Counterexample to C6 as stated: at `n = 1`, `min = 0` the loop's
first iteration computes `1 / 0` and panics; no offsets sequence (let
alone one of total length `1`) is produced. -/
theorem getFecSetOffsets_totality_counterexample :
    getFecSetOffsets 1 0 = none := rfl

/-- Witness for C6 at `n = 7`, `min = 3`. -/
theorem getFecSetOffsets_totality_witness :
    ∃ offsets, getFecSetOffsets 7 3 = some offsets ∧ offsets.length = 7
      ∧ ((fecChunks 7 3).map Prod.snd).sum = 7 :=
  getFecSetOffsets_totality 7 3 (Or.inl (by decide))

/-! ### Deshred lemmas -/

theorem getLast?_cons_eq (a : Shred) (l : List Shred) :
    (a :: l).getLast? = some (l.getLast?.getD a) := by
  induction l generalizing a with
  | nil => rfl
  | cons c l ih =>
    rw [List.getLast?_cons_cons, ih c]
    simp

theorem deshred_fold_from (rest : List Shred) :
    ∀ (s₀ : Shred) (d : List Nat),
      List.foldlM deshredStep
        (d, some s₀.index, flagsContains s₀.flags DATA_COMPLETE_SHRED) rest
      = match ((s₀ :: rest).zip rest).find? deshredViol with
        | some pc =>
          Except.error (if flagsContains pc.1.flags DATA_COMPLETE_SHRED
            then ShredError.InvalidDeshredSet else ShredError.TooFewDataShards)
        | none =>
          Except.ok (d ++ (rest.map Shred.data).flatten,
            some (rest.getLast?.getD s₀).index,
            flagsContains (rest.getLast?.getD s₀).flags DATA_COMPLETE_SHRED) := by
  induction rest with
  | nil =>
    intro s₀ d
    simp only [List.foldlM, List.zip_nil_right, List.find?_nil, List.map_nil,
      List.flatten_nil, List.append_nil, List.getLast?_nil, Option.getD_none]
    rfl
  | cons s₁ rest' ih =>
    intro s₀ d
    rw [List.foldlM_cons]
    have hzip : ((s₀ :: s₁ :: rest').zip (s₁ :: rest'))
        = (s₀, s₁) :: ((s₁ :: rest').zip rest') := rfl
    rw [hzip]
    by_cases hdc : flagsContains s₀.flags DATA_COMPLETE_SHRED
    · rw [List.find?_cons_of_pos _ (by simp [deshredViol, hdc])]
      have hstep : deshredStep
          (d, some s₀.index, flagsContains s₀.flags DATA_COMPLETE_SHRED) s₁
          = Except.error ShredError.InvalidDeshredSet := by
        simp [deshredStep, hdc]
      rw [hstep]
      show Except.error ShredError.InvalidDeshredSet = _
      simp [hdc]
    · by_cases hidx : s₀.index + 1 = s₁.index
      · have hv : ¬ deshredViol (s₀, s₁) = true := by
          simp [deshredViol, hdc, bne_iff_ne]
          omega
        rw [List.find?_cons_of_neg _ hv]
        have hstep : deshredStep
            (d, some s₀.index, flagsContains s₀.flags DATA_COMPLETE_SHRED) s₁
            = Except.ok (d ++ s₁.data, some s₁.index,
                flagsContains s₁.flags DATA_COMPLETE_SHRED) := by
          simp [deshredStep, hdc, hidx]
        rw [hstep]
        have hbind : (Except.ok (d ++ s₁.data, some s₁.index,
              flagsContains s₁.flags DATA_COMPLETE_SHRED)
              >>= fun init => List.foldlM deshredStep init rest')
            = List.foldlM deshredStep (d ++ s₁.data, some s₁.index,
                flagsContains s₁.flags DATA_COMPLETE_SHRED) rest' := rfl
        rw [hbind, ih s₁ (d ++ s₁.data)]
        cases hfind : ((s₁ :: rest').zip rest').find? deshredViol with
        | some pc => rfl
        | none =>
          have hlast : (s₁ :: rest').getLast?.getD s₀ = rest'.getLast?.getD s₁ := by
            rw [getLast?_cons_eq]
            rfl
          simp [hlast]
      · have hv : deshredViol (s₀, s₁) = true := by
          simp [deshredViol, hdc, bne_iff_ne]
          omega
        rw [List.find?_cons_of_pos _ hv]
        have hstep : deshredStep
            (d, some s₀.index, flagsContains s₀.flags DATA_COMPLETE_SHRED) s₁
            = Except.error ShredError.TooFewDataShards := by
          simp [deshredStep, hdc, hidx]
        rw [hstep]
        show Except.error ShredError.TooFewDataShards = _
        simp [hdc]

theorem deshred_eq_deshredSpec (dataBufferSize : Nat) (shreds : List Shred) :
    deshred dataBufferSize shreds = deshredSpec dataBufferSize shreds := by
  cases shreds with
  | nil => rfl
  | cons s₀ rest =>
    unfold deshred deshredSpec
    rw [List.foldlM_cons]
    have hstep0 : deshredStep ([], none, false) s₀
        = Except.ok (s₀.data, some s₀.index,
            flagsContains s₀.flags DATA_COMPLETE_SHRED) := by
      simp [deshredStep]
    rw [hstep0]
    have hbind : (Except.ok (s₀.data, some s₀.index,
          flagsContains s₀.flags DATA_COMPLETE_SHRED)
          >>= fun init => List.foldlM deshredStep init rest)
        = List.foldlM deshredStep (s₀.data, some s₀.index,
            flagsContains s₀.flags DATA_COMPLETE_SHRED) rest := rfl
    rw [hbind, deshred_fold_from rest s₀ s₀.data]
    have htail : (s₀ :: rest).tail = rest := rfl
    rw [htail]
    cases hfind : ((s₀ :: rest).zip rest).find? deshredViol with
    | some pc => rfl
    | none =>
      rw [getLast?_cons_eq]
      by_cases hdcL : flagsContains (rest.getLast?.getD s₀).flags DATA_COMPLETE_SHRED
      · simp only [hdcL]
        have hdata : ((s₀ :: rest).map Shred.data).flatten
            = s₀.data ++ (rest.map Shred.data).flatten := by simp
        rw [hdata]
        rfl
      · simp only [hdcL]
        rfl

theorem chunksOfSizeF_fuel_eq {α : Type _} (fuel₁ : Nat) :
    ∀ (fuel₂ chunkSize : Nat) (l : List α), l.length ≤ fuel₁ → l.length ≤ fuel₂ →
      chunksOfSizeF fuel₁ chunkSize l = chunksOfSizeF fuel₂ chunkSize l := by
  induction fuel₁ with
  | zero =>
    intro fuel₂ chunkSize l h1 h2
    have hl : l = [] := List.eq_nil_of_length_eq_zero (by omega)
    subst hl
    cases fuel₂ <;> rfl
  | succ fuel₁ ih =>
    intro fuel₂ chunkSize l h1 h2
    cases l with
    | nil => cases fuel₂ <;> rfl
    | cons x xs =>
      obtain ⟨fuel₂', rfl⟩ : ∃ j, fuel₂ = j + 1 :=
        ⟨fuel₂ - 1, by simp only [List.length_cons] at h2; omega⟩
      by_cases hC : chunkSize = 0
      · simp [chunksOfSizeF, hC]
      · simp only [chunksOfSizeF, if_neg hC]
        congr 1
        apply ih
        · simp only [List.length_drop, List.length_cons]
          simp only [List.length_cons] at h1
          omega
        · simp only [List.length_drop, List.length_cons]
          simp only [List.length_cons] at h2
          omega

theorem chunksOfSize_eq {α : Type _} (chunkSize : Nat) (hC : 0 < chunkSize)
    (l : List α) :
    chunksOfSize chunkSize l
      = match l with
        | [] => []
        | x :: xs => (x :: xs).take chunkSize
            :: chunksOfSize chunkSize ((x :: xs).drop chunkSize) := by
  cases l with
  | nil => rfl
  | cons x xs =>
    show chunksOfSizeF (xs.length + 1) chunkSize (x :: xs) = _
    simp only [chunksOfSizeF]
    rw [if_neg (show ¬chunkSize = 0 by omega)]
    congr 1
    apply chunksOfSizeF_fuel_eq
    · simp only [List.length_drop, List.length_cons]
      omega
    · exact le_rfl

theorem chunksOfSize_flatten_aux {α : Type _} (chunkSize : Nat) (hC : 0 < chunkSize) :
    ∀ (n : Nat) (l : List α), l.length ≤ n →
      (chunksOfSize chunkSize l).flatten = l := by
  intro n
  induction n with
  | zero =>
    intro l h
    have hl : l = [] := List.eq_nil_of_length_eq_zero (by omega)
    subst hl
    rfl
  | succ n ih =>
    intro l h
    cases l with
    | nil => rfl
    | cons x xs =>
      rw [chunksOfSize_eq chunkSize hC]
      simp only [List.flatten_cons]
      rw [ih _ (by simp only [List.length_drop, List.length_cons]
                   simp only [List.length_cons] at h
                   omega)]
      exact List.take_append_drop _ _

theorem chunksOfSize_flatten {α : Type _} (chunkSize : Nat) (hC : 0 < chunkSize)
    (l : List α) : (chunksOfSize chunkSize l).flatten = l :=
  chunksOfSize_flatten_aux chunkSize hC l.length l le_rfl

theorem fecOffsets_length (n min : Nat) :
    (((fecChunks n min).map fun c => List.replicate c.2 c.1).flatten).length = n := by
  rw [List.length_flatten, List.map_map]
  have hcomp : (List.length ∘ fun c : Nat × Nat => List.replicate c.2 c.1)
      = Prod.snd := funext fun c => by simp
  rw [hcomp]
  exact fecChunksGo_sum min n 0

theorem deshredSpec_ok_of (dataBufferSize : Nat) (shreds : List Shred)
    (payload : List Nat)
    (hne : shreds ≠ [])
    (hidx : ∀ i s₁ s₂, shreds[i]? = some s₁ → shreds[i + 1]? = some s₂ →
      s₂.index = s₁.index + 1)
    (hmid : ∀ i s, shreds[i]? = some s → i + 1 < shreds.length →
      flagsContains s.flags DATA_COMPLETE_SHRED = false)
    (hlast : ∀ s, shreds[shreds.length - 1]? = some s →
      flagsContains s.flags DATA_COMPLETE_SHRED = true)
    (hdata : (shreds.map Shred.data).flatten = payload)
    (hpne : payload ≠ []) :
    deshredSpec dataBufferSize shreds = Except.ok payload := by
  unfold deshredSpec
  have hfind : (shreds.zip shreds.tail).find? deshredViol = none := by
    rw [List.find?_eq_none]
    intro pc hpc
    obtain ⟨i, hzi⟩ := List.mem_iff_getElem?.mp hpc
    obtain ⟨h1, h2⟩ := List.getElem?_zip_eq_some.mp hzi
    rw [List.getElem?_tail] at h2
    have hlt : i + 1 < shreds.length := by
      by_contra hge
      rw [List.getElem?_eq_none (by omega)] at h2
      exact Option.noConfusion h2
    have hf := hmid i pc.1 h1 hlt
    have he := hidx i pc.1 pc.2 h1 h2
    simp [deshredViol, hf, he]
  rw [hfind]
  have hgl : shreds.getLast? = shreds[shreds.length - 1]? :=
    List.getLast?_eq_getElem? shreds
  have hsome : shreds[shreds.length - 1]? = some (shreds.getLast hne) := by
    rw [← hgl]
    exact List.getLast?_eq_getLast shreds hne
  have hfl := hlast _ hsome
  rw [List.getLast?_eq_getLast shreds hne]
  simp only [hfl, if_true, hdata, if_neg hpne]

theorem entriesToDataShreds_getElem (self : Shredder) (dataBufferSize : Nat)
    (payload : List Nat) (isLastInSlot : Bool) (nextShredIndex : Nat) (i : Nat) :
    (self.entriesToDataShreds dataBufferSize payload isLastInSlot nextShredIndex)[i]?
      = (((chunksOfSize dataBufferSize payload).zip
            (((fecChunks (chunksOfSize dataBufferSize payload).length
                DATA_SHREDS_PER_FEC_BLOCK).map
              fun c => List.replicate c.2 c.1).flatten))[i]?).map
          fun co =>
            makeDataShred self isLastInSlot
              (nextShredIndex + (chunksOfSize dataBufferSize payload).length - 1)
              co.1 (nextShredIndex + i) (nextShredIndex + co.2) := by
  unfold Shredder.entriesToDataShreds
  simp only [List.getElem?_map, List.getElem?_enum, Option.map_map]
  cases ((chunksOfSize dataBufferSize payload).zip
      (((fecChunks (chunksOfSize dataBufferSize payload).length
          DATA_SHREDS_PER_FEC_BLOCK).map fun c => List.replicate c.2 c.1).flatten))[i]? <;>
    rfl

theorem entriesToDataShreds_length (self : Shredder) (dataBufferSize : Nat)
    (payload : List Nat) (isLastInSlot : Bool) (nextShredIndex : Nat) :
    (self.entriesToDataShreds dataBufferSize payload isLastInSlot nextShredIndex).length
      = (chunksOfSize dataBufferSize payload).length := by
  unfold Shredder.entriesToDataShreds
  simp only [List.length_map, List.enum_length, List.length_zip,
    fecOffsets_length]
  exact Nat.min_self _

/-- C1 (amended).  Round-trip: for every non-empty payload,
deshredding the data shreds produced for that payload (in order) yields
a buffer whose first `len(payload)` bytes equal the payload, with only
trailing zero-padding allowed after that prefix (the data shredder is
`entries_to_data_shreds` applied to the serialized payload, with the
codec's chunk capacity as a parameter; in the model the buffer is
exactly the payload).  For the empty payload no data shred is produced
and `deshred` fails (see the counterexample). -/
theorem entriesToDataShreds_roundTrip (self : Shredder) (dataBufferSize : Nat)
    (payload : List Nat) (isLastInSlot : Bool) (nextShredIndex : Nat)
    (hC : 0 < dataBufferSize) (hp : payload ≠ []) :
    ∃ buf,
      deshred dataBufferSize
          (self.entriesToDataShreds dataBufferSize payload isLastInSlot nextShredIndex)
        = Except.ok buf
      ∧ buf.take payload.length = payload
      ∧ ∀ b ∈ buf.drop payload.length, b = 0 := by
  refine ⟨payload, ?_, by simp, by simp⟩
  rw [deshred_eq_deshredSpec]
  obtain ⟨chunks, hchunks⟩ : ∃ c, chunksOfSize dataBufferSize payload = c := ⟨_, rfl⟩
  obtain ⟨k, hk⟩ : ∃ k, chunks.length = k := ⟨_, rfl⟩
  obtain ⟨Z, hZ⟩ : ∃ Z, chunks.zip
      (((fecChunks k DATA_SHREDS_PER_FEC_BLOCK).map
        fun c => List.replicate c.2 c.1).flatten) = Z := ⟨_, rfl⟩
  have hkpos : 0 < k := by
    obtain ⟨x, xs, rfl⟩ : ∃ x xs, payload = x :: xs := by
      cases payload with
      | nil => exact absurd rfl hp
      | cons x xs => exact ⟨x, xs, rfl⟩
    rw [← hk, ← hchunks, chunksOfSize_eq dataBufferSize hC]
    simp
  have hget : ∀ i,
      (self.entriesToDataShreds dataBufferSize payload isLastInSlot nextShredIndex)[i]?
      = (Z[i]?).map fun co => makeDataShred self isLastInSlot (nextShredIndex + k - 1)
          co.1 (nextShredIndex + i) (nextShredIndex + co.2) := by
    intro i
    rw [entriesToDataShreds_getElem, hchunks, hk, hZ]
  have hZlen : Z.length = k := by
    rw [← hZ, List.length_zip, fecOffsets_length, hk]
    exact Nat.min_self _
  have hlen : (self.entriesToDataShreds dataBufferSize payload isLastInSlot
      nextShredIndex).length = k := by
    rw [entriesToDataShreds_length, hchunks, hk]
  apply deshredSpec_ok_of
  · intro h0
    rw [h0] at hlen
    simp at hlen
    omega
  · intro i s₁ s₂ h1 h2
    rw [hget i] at h1
    rw [hget (i + 1)] at h2
    cases hz1 : Z[i]? with
    | none => rw [hz1] at h1; exact Option.noConfusion h1
    | some co₁ =>
      cases hz2 : Z[i + 1]? with
      | none => rw [hz2] at h2; exact Option.noConfusion h2
      | some co₂ =>
        rw [hz1] at h1
        rw [hz2] at h2
        simp only [Option.map_some', Option.some.injEq] at h1 h2
        rw [← h1, ← h2]
        show nextShredIndex + (i + 1) = nextShredIndex + i + 1
        omega
  · intro i s h1 hlt
    rw [hget i] at h1
    rw [hlen] at hlt
    cases hz1 : Z[i]? with
    | none => rw [hz1] at h1; exact Option.noConfusion h1
    | some co =>
      rw [hz1] at h1
      simp only [Option.map_some', Option.some.injEq] at h1
      rw [← h1]
      have hflags : (makeDataShred self isLastInSlot (nextShredIndex + k - 1)
          co.1 (nextShredIndex + i) (nextShredIndex + co.2)).flags = 0 := by
        simp only [makeDataShred]
        rw [if_pos (show nextShredIndex + i ≠ nextShredIndex + k - 1 by omega)]
      rw [hflags]
      decide
  · intro s h1
    rw [hlen, hget (k - 1)] at h1
    cases hz1 : Z[k - 1]? with
    | none => rw [hz1] at h1; exact Option.noConfusion h1
    | some co =>
      rw [hz1] at h1
      simp only [Option.map_some', Option.some.injEq] at h1
      rw [← h1]
      have hflags : (makeDataShred self isLastInSlot (nextShredIndex + k - 1)
          co.1 (nextShredIndex + (k - 1)) (nextShredIndex + co.2)).flags
          = if isLastInSlot then LAST_SHRED_IN_SLOT else DATA_COMPLETE_SHRED := by
        simp only [makeDataShred]
        rw [if_neg (show ¬ nextShredIndex + (k - 1) ≠ nextShredIndex + k - 1 by omega)]
      rw [hflags]
      cases isLastInSlot <;> decide
  · have hmap : (self.entriesToDataShreds dataBufferSize payload isLastInSlot
        nextShredIndex).map Shred.data = chunks := by
      apply List.ext_getElem?
      intro i
      rw [List.getElem?_map, hget i]
      cases hz : Z[i]? with
      | none =>
        have hge : k ≤ i := by
          have := List.getElem?_eq_none_iff.mp hz
          omega
        rw [List.getElem?_eq_none (by omega : chunks.length ≤ i)]
        rfl
      | some co =>
        have hz2 : (chunks.zip
            (((fecChunks k DATA_SHREDS_PER_FEC_BLOCK).map
              fun c => List.replicate c.2 c.1).flatten))[i]? = some co := by
          rw [hZ]
          exact hz
        obtain ⟨hc1, _⟩ := List.getElem?_zip_eq_some.mp hz2
        rw [hc1]
        simp only [Option.map_some']
        rfl
    rw [hmap, ← hchunks]
    exact chunksOfSize_flatten dataBufferSize hC payload
  · exact hp

/-- Counterexample to C1 as stated: for the empty payload the data
shredder emits no shreds, and `deshred` of the empty sequence fails
with `too_few_data_shards` instead of yielding a buffer. -/
theorem entriesToDataShreds_roundTrip_counterexample :
    Shredder.entriesToDataShreds
        { slot := 1, parentSlot := 0, version := 0, referenceTick := 0 }
        5 [] false 1 = []
    ∧ deshred 5 [] = Except.error ShredError.TooFewDataShards := ⟨rfl, rfl⟩

/-- Witness for C1 at payload `[1, 2, 3]`, chunk capacity `2`,
`is_last_in_slot = true`, `next_shred_index = 0`. -/
theorem entriesToDataShreds_roundTrip_witness :
    ∃ buf,
      deshred 2 (Shredder.entriesToDataShreds
          { slot := 1, parentSlot := 0, version := 0, referenceTick := 0 }
          2 [1, 2, 3] true 0)
        = Except.ok buf
      ∧ buf.take ([1, 2, 3] : List Nat).length = [1, 2, 3]
      ∧ ∀ b ∈ buf.drop ([1, 2, 3] : List Nat).length, b = 0 :=
  entriesToDataShreds_roundTrip
    { slot := 1, parentSlot := 0, version := 0, referenceTick := 0 }
    2 [1, 2, 3] true 0 (by decide) (by decide)

/-- C7 (amended).  Deshred error contract with the fold's actual check
order: scanning adjacent pairs left to right, the first violating pair
determines the error — `invalid_deshred_set` when its earlier shred
carried `DATA_COMPLETE_SHRED` (this check runs first), else
`too_few_data_shards` for the index discontinuity; with no violating
pair, the call fails with `too_few_data_shards` unless the final shred
carries `DATA_COMPLETE_SHRED` (in particular on empty input), and
otherwise succeeds with the concatenated data. -/
theorem deshred_error_contract (dataBufferSize : Nat) (shreds : List Shred) :
    deshred dataBufferSize shreds = deshredSpec dataBufferSize shreds :=
  deshred_eq_deshredSpec dataBufferSize shreds

/-- Counterexample to C7 as stated: in `[cxShredA, cxShredB]` the
second shred's index (7) is not the predecessor's plus one, yet
`deshred` fails with `invalid_deshred_set` (the completion-marker check
runs first), not with `too_few_data_shards` as the claim's second
conditional demands. -/
theorem deshred_error_contract_counterexample :
    cxShredB.index ≠ cxShredA.index + 1
    ∧ deshred 5 [cxShredA, cxShredB] = Except.error ShredError.InvalidDeshredSet
    ∧ deshred 5 [cxShredA, cxShredB] ≠ Except.error ShredError.TooFewDataShards := by
  refine ⟨by decide, rfl, ?_⟩
  show Except.error ShredError.InvalidDeshredSet
    ≠ Except.error ShredError.TooFewDataShards
  simp

/-! ### Recovery -/

/-- C8.  Recovery degenerate inputs: `try_recovery` on an empty input
fails with `too_few_shards_present`; on a non-empty input with no code
shred it returns an empty sequence without error; and when the first
code shred advertises `num_parity = 0`, or the input size is at least
`num_data + num_parity`, it also returns an empty sequence without
error — all regardless of the Reed-Solomon decoder `rs`. -/
theorem tryRecovery_degenerate :
    (∀ rs, tryRecovery rs [] = Except.error ShredError.TooFewShardsPresent)
    ∧ (∀ rs shreds, shreds ≠ [] → shreds.find? Shred.isCode = none →
        tryRecovery rs shreds = Except.ok [])
    ∧ (∀ rs shreds codeShred, shreds.find? Shred.isCode = some codeShred →
        (codeShred.numCodingShreds = 0
          ∨ codeShred.numDataShreds + codeShred.numCodingShreds ≤ shreds.length) →
        tryRecovery rs shreds = Except.ok []) := by
  refine ⟨fun rs => rfl, ?_, ?_⟩
  · intro rs shreds hne hfind
    obtain ⟨s₀, rest, rfl⟩ : ∃ a l, shreds = a :: l := by
      cases shreds with
      | nil => exact absurd rfl hne
      | cons a l => exact ⟨a, l, rfl⟩
    unfold tryRecovery
    simp only [List.head?_cons, hfind]
  · intro rs shreds codeShred hfind hcond
    obtain ⟨s₀, rest, rfl⟩ : ∃ a l, shreds = a :: l := by
      cases shreds with
      | nil => exact Option.noConfusion hfind
      | cons a l => exact ⟨a, l, rfl⟩
    unfold tryRecovery
    simp only [List.head?_cons, hfind]
    rw [if_pos hcond]

/-- Witness for C8: an empty input, a data-only input, and an input
whose code shred advertises zero parity shreds, with a trivial decoder. -/
theorem tryRecovery_degenerate_witness :
    tryRecovery (fun _ _ shards => Except.ok shards) []
      = Except.error ShredError.TooFewShardsPresent
    ∧ tryRecovery (fun _ _ shards => Except.ok shards) [wDataShred] = Except.ok []
    ∧ tryRecovery (fun _ _ shards => Except.ok shards) [wCodeShred] = Except.ok [] :=
  ⟨tryRecovery_degenerate.1 _,
   tryRecovery_degenerate.2.1 _ [wDataShred] (by decide) (by decide),
   tryRecovery_degenerate.2.2 _ [wCodeShred] wCodeShred (by decide) (Or.inl (by decide))⟩

/-! ### Coding shredder -/

theorem generateCodingShreds_ok (g : List Shred) (base : Nat) (cs : List Shred)
    (h : generateCodingShreds g base = some cs) :
    ∃ first rest, g = first :: rest
      ∧ first.fecSetIndex = first.index
      ∧ (∀ m ∈ g, m.slot = first.slot ∧ m.version = first.version
          ∧ m.fecSetIndex = first.fecSetIndex)
      ∧ 0 < parityCount g
      ∧ cs = (List.range (parityCount g)).map fun i =>
          { slot := first.slot, index := base + i, version := first.version,
            fecSetIndex := first.fecSetIndex, isData := false, flags := 0,
            data := [], parentOffset := 0, numDataShreds := g.length,
            numCodingShreds := parityCount g, position := i } := by
  cases g with
  | nil => exact Option.noConfusion h
  | cons first rest =>
    simp only [generateCodingShreds] at h
    by_cases h1 : first.fecSetIndex ≠ first.index
    · rw [if_pos h1] at h
      exact Option.noConfusion h
    · rw [if_neg h1] at h
      by_cases h2 : ¬ ((first :: rest).all fun shred =>
          shred.slot == first.slot && shred.version == first.version &&
          shred.fecSetIndex == first.fecSetIndex)
      · rw [if_pos h2] at h
        exact Option.noConfusion h
      · rw [if_neg h2] at h
        by_cases h3 : getErasureBatchSize (first :: rest).length
            (chunkLastInSlot (first :: rest)) < (first :: rest).length
        · rw [if_pos h3] at h
          exact Option.noConfusion h
        · rw [if_neg h3] at h
          by_cases h4 : parityCount (first :: rest) = 0
          · rw [if_pos h4] at h
            exact Option.noConfusion h
          · rw [if_neg h4] at h
            by_cases h5 : 65535 < (first :: rest).length
                ∨ 65535 < parityCount (first :: rest)
            · rw [if_pos h5] at h
              exact Option.noConfusion h
            · rw [if_neg h5] at h
              by_cases h6 : 256 < (first :: rest).length + parityCount (first :: rest)
              · rw [if_pos h6] at h
                exact Option.noConfusion h
              · rw [if_neg h6] at h
                refine ⟨first, rest, rfl, by omega, ?_, by omega, ?_⟩
                · intro m hm
                  rw [not_not, List.all_eq_true] at h2
                  have := h2 m hm
                  simp only [Bool.and_eq_true, beq_iff_eq] at this
                  exact ⟨this.1.1, this.1.2, this.2⟩
                · exact (Option.some.injEq _ _).mp h |>.symm

theorem codingSegments (chunks : List (List Shred)) :
    ∀ (nci : Nat) (segs : List (List Shred)),
      ((chunks.zip (List.scanl (fun acc chunk => acc + parityCount chunk)
          nci chunks)).mapM (fun gb => generateCodingShreds gb.1 gb.2)) = some segs →
      segs.length = chunks.length
      ∧ ∀ i g, chunks[i]? = some g →
          generateCodingShreds g (nci + ((chunks.take i).map parityCount).sum)
            = segs[i]? := by
  induction chunks with
  | nil =>
    intro nci segs h
    simp only [List.zip_nil_left, List.mapM_nil, pure, Option.some.injEq] at h
    subst h
    exact ⟨rfl, fun i g hg => Option.noConfusion hg⟩
  | cons g₀ chunks ih =>
    intro nci segs h
    rw [List.scanl_cons] at h
    simp only [List.singleton_append, List.zip_cons_cons, List.mapM_cons] at h
    cases hgen : generateCodingShreds g₀ nci with
    | none =>
      rw [hgen] at h
      simp at h
    | some cs =>
      rw [hgen] at h
      cases hrest : (chunks.zip (List.scanl (fun acc chunk => acc + parityCount chunk)
          (nci + parityCount g₀) chunks)).mapM (fun gb => generateCodingShreds gb.1 gb.2) with
      | none =>
        rw [hrest] at h
        simp at h
      | some segs' =>
        rw [hrest] at h
        simp only [Option.bind_eq_bind, Option.some_bind, pure,
          Option.some.injEq] at h
        obtain ⟨hlen, hall⟩ := ih (nci + parityCount g₀) segs' hrest
        subst h
        refine ⟨by simp [hlen], ?_⟩
        intro i g hg
        match i with
        | 0 =>
          simp only [List.getElem?_cons_zero, Option.some.injEq] at hg
          subst hg
          simpa using hgen
        | i + 1 =>
          simp only [List.getElem?_cons_succ] at hg ⊢
          have := hall i g hg
          rw [List.take_succ_cons, List.map_cons, List.sum_cons, ← Nat.add_assoc]
          exact this

/-- C3.  Code-shred pairing: whenever the coding shredder succeeds on a
non-empty list of data shreds, its output splits into one segment per
FEC group (consecutive run of equal `fec_set_index`); the segment of a
group with `num_data` data shreds and terminal flag `t` (the last
shred's `last_in_slot`) has exactly
`batch_size(num_data, t) - num_data` code shreds, each a code shred
sharing the `fec_set_index` of every member of the group, and the code
shred at position `j` of group `i` has
`index = code_index_base + j` where `code_index_base` is
`next_code_index` plus the sum of the earlier groups' parity counts
(and `erasure_shard_index = num_data + j`). -/
theorem dataShredsToCodingShreds_pairing (dataShreds : List Shred) (nci : Nat)
    (res : List Shred) (hne : dataShreds ≠ [])
    (hok : dataShredsToCodingShreds dataShreds nci = some res) :
    ∃ segs : List (List Shred),
      res = segs.flatten
      ∧ segs.length = (chunkBy Shred.fecSetIndex dataShreds).length
      ∧ ∀ i g, (chunkBy Shred.fecSetIndex dataShreds)[i]? = some g →
          ∃ seg, segs[i]? = some seg
            ∧ seg.length = getErasureBatchSize g.length (chunkLastInSlot g) - g.length
            ∧ ∀ j s, seg[j]? = some s →
                s.isData = false
                ∧ (∀ m ∈ g, s.fecSetIndex = m.fecSetIndex)
                ∧ s.position = j
                ∧ s.numDataShreds = g.length
                ∧ s.index = nci
                    + (((chunkBy Shred.fecSetIndex dataShreds).take i).map
                        parityCount).sum + j
                ∧ s.erasureShardIndex = some (g.length + j) := by
  unfold dataShredsToCodingShreds at hok
  rw [if_neg (by simp [hne])] at hok
  obtain ⟨segs, hsegs, hflat⟩ := Option.map_eq_some'.mp hok
  obtain ⟨hlen, hall⟩ := codingSegments (chunkBy Shred.fecSetIndex dataShreds) nci segs hsegs
  refine ⟨segs, hflat.symm, hlen, ?_⟩
  intro i g hg
  have hgen := hall i g hg
  cases hseg : segs[i]? with
  | none =>
    have hi : i < (chunkBy Shred.fecSetIndex dataShreds).length := by
      by_contra hge
      rw [List.getElem?_eq_none (by omega)] at hg
      exact Option.noConfusion hg
    have hne2 : segs[i]? ≠ none := by
      rw [Ne, List.getElem?_eq_none_iff]
      omega
    exact absurd hseg hne2
  | some seg =>
    rw [hseg] at hgen
    obtain ⟨first, rest, hcons, hfe, hmem, hpc, hcs⟩ :=
      generateCodingShreds_ok g _ seg hgen
    refine ⟨seg, rfl, ?_, ?_⟩
    · rw [hcs]
      simp only [List.length_map, List.length_range]
      rfl
    · intro j s hs
      rw [hcs, List.getElem?_map] at hs
      have hjlt : j < parityCount g := by
        by_contra hge
        rw [List.getElem?_eq_none (by simpa using by omega)] at hs
        exact Option.noConfusion hs
      rw [List.getElem?_range hjlt] at hs
      simp only [Option.map_some', Option.some.injEq] at hs
      subst hs
      refine ⟨rfl, ?_, rfl, rfl, rfl, ?_⟩
      · intro m hm
        exact ((hmem m hm).2.2).symm
      · simp [Shred.erasureShardIndex]

/-- Witness for C3: a single FEC group of one data shred (not last in
slot) with `next_code_index = 5` yields exactly
`ERASURE_BATCH_SIZE[1] - 1 = 17` code shreds with indices `5..22`. -/
theorem dataShredsToCodingShreds_pairing_witness :
    dataShredsToCodingShreds [wGroupShred] 5 = some wCodeRes
    ∧ ∃ segs : List (List Shred),
        wCodeRes = segs.flatten
        ∧ segs.length = (chunkBy Shred.fecSetIndex [wGroupShred]).length
        ∧ ∀ i g, (chunkBy Shred.fecSetIndex [wGroupShred])[i]? = some g →
            ∃ seg, segs[i]? = some seg
              ∧ seg.length
                  = getErasureBatchSize g.length (chunkLastInSlot g) - g.length
              ∧ ∀ j s, seg[j]? = some s →
                  s.isData = false
                  ∧ (∀ m ∈ g, s.fecSetIndex = m.fecSetIndex)
                  ∧ s.position = j
                  ∧ s.numDataShreds = g.length
                  ∧ s.index = 5
                      + (((chunkBy Shred.fecSetIndex [wGroupShred]).take i).map
                          parityCount).sum + j
                  ∧ s.erasureShardIndex = some (g.length + j) :=
  ⟨by decide,
   dataShredsToCodingShreds_pairing [wGroupShred] 5 wCodeRes (by decide) (by decide)⟩

theorem except_bind_ok {α β : Type} (a : α) (f : α → Except ShredError β) :
    (Except.ok a >>= f) = f a := rfl

theorem except_bind_error {α β : Type} (e : ShredError)
    (f : α → Except ShredError β) :
    ((Except.error e : Except ShredError α) >>= f) = Except.error e := rfl

theorem annPipeline_eq (ms : List Bool) :
    ∀ (os : List (Option Shred)) (k : Nat),
      ((ms.zip os).filter (fun p => !p.1)).filterMap (fun p => p.2)
        = (annPipeline ms os k).map Prod.fst := by
  induction ms with
  | nil => intro os k; rfl
  | cons m ms ih =>
    intro os k
    cases os with
    | nil => rfl
    | cons o os =>
      simp only [List.zip_cons_cons, List.filter_cons]
      cases m with
      | true =>
        rw [if_neg (by simp)]
        rw [ih os (k + 1)]
        simp [annPipeline]
      | false =>
        rw [if_pos (by simp)]
        simp only [List.filterMap_cons]
        cases o with
        | none =>
          rw [ih os (k + 1)]
          simp [annPipeline]
        | some s =>
          rw [ih os (k + 1)]
          simp [annPipeline]

theorem annPipeline_mem (ms : List Bool) :
    ∀ (os : List (Option Shred)) (k : Nat) (x : Shred × Nat),
      x ∈ annPipeline ms os k →
      k ≤ x.2 ∧ ms[x.2 - k]? = some false ∧ os[x.2 - k]? = some (some x.1) := by
  induction ms with
  | nil =>
    intro os k x hx
    simp [annPipeline] at hx
  | cons m ms ih =>
    intro os k x hx
    cases os with
    | nil => simp [annPipeline] at hx
    | cons o os =>
      have htail : x ∈ annPipeline ms os (k + 1) →
          k ≤ x.2 ∧ (m :: ms)[x.2 - k]? = some false
            ∧ (o :: os)[x.2 - k]? = some (some x.1) := by
        intro hx'
        obtain ⟨hk, hm, ho⟩ := ih os (k + 1) x hx'
        have hdx : x.2 - k = (x.2 - (k + 1)) + 1 := by omega
        rw [hdx, List.getElem?_cons_succ, List.getElem?_cons_succ]
        exact ⟨by omega, hm, ho⟩
      simp only [annPipeline] at hx
      cases m with
      | true =>
        rw [if_pos (by simp)] at hx
        exact htail hx
      | false =>
        rw [if_neg (by simp)] at hx
        cases o with
        | none => exact htail hx
        | some s =>
          rcases List.mem_cons.mp hx with rfl | hx'
          · simp
          · exact htail hx'

theorem annPipeline_pairwise (ms : List Bool) :
    ∀ (os : List (Option Shred)) (k : Nat),
      (annPipeline ms os k).Pairwise (fun a b => a.2 < b.2) := by
  induction ms with
  | nil => intro os k; simp [annPipeline]
  | cons m ms ih =>
    intro os k
    cases os with
    | nil => simp [annPipeline]
    | cons o os =>
      simp only [annPipeline]
      cases m with
      | true =>
        rw [if_pos (by simp)]
        exact ih os (k + 1)
      | false =>
        rw [if_neg (by simp)]
        cases o with
        | none => exact ih os (k + 1)
        | some s =>
          refine List.Pairwise.cons ?_ (ih os (k + 1))
          intro b hb
          have := (annPipeline_mem ms os (k + 1) b hb).1
          show k < b.2
          omega

theorem recoveryFold_facts (d f : Nat) (shreds : List Shred) :
    ∀ (st st' : List Bool × List (Option Shred)),
      st.1.length = d →
      List.foldlM (recoveryStep d f) st shreds = Except.ok st' →
      st'.1.length = d
      ∧ (∀ s ∈ shreds, ∃ pos, s.erasureShardIndex = some pos ∧ pos < f
          ∧ (pos < d → st'.1[pos]? = some true))
      ∧ (∀ pos : Nat, st.1[pos]? = some true → st'.1[pos]? = some true) := by
  induction shreds with
  | nil =>
    intro st st' hlen h
    have h' : (Except.ok st : Except ShredError (List Bool × List (Option Shred)))
        = Except.ok st' := h
    have hst : st = st' := Except.ok.inj h'
    subst hst
    exact ⟨hlen, by simp, fun pos hp => hp⟩
  | cons s rest ih =>
    intro st st' hlen h
    rw [List.foldlM_cons] at h
    cases hidx : s.erasureShardIndex with
    | none =>
      have hstep : recoveryStep d f st s = Except.error ShredError.InvalidIndex := by
        simp [recoveryStep, hidx]
      rw [hstep, except_bind_error] at h
      exact Except.noConfusion h
    | some pos =>
      by_cases hltf : pos < f
      · have hstep : recoveryStep d f st s
            = Except.ok ((if pos < d then st.1.set pos true else st.1),
                st.2.set pos (some s)) := by
          simp [recoveryStep, hidx, hltf]
        rw [hstep, except_bind_ok] at h
        have hlen1 : (if pos < d then st.1.set pos true else st.1).length = d := by
          by_cases hd : pos < d <;> simp [hd, hlen]
        obtain ⟨hl', hmem, hmono⟩ := ih _ st' hlen1 h
        refine ⟨hl', ?_, ?_⟩
        · intro t ht
          rcases List.mem_cons.mp ht with rfl | htr
          · refine ⟨pos, hidx, hltf, fun hd => ?_⟩
            apply hmono
            rw [if_pos hd, List.getElem?_set, if_pos rfl, if_pos (by omega)]
          · exact hmem t htr
        · intro p hp
          apply hmono
          by_cases hd : pos < d
          · rw [if_pos hd, List.getElem?_set]
            by_cases hpe : pos = p
            · subst hpe
              rw [if_pos rfl, if_pos (by omega)]
            · rw [if_neg hpe]
              exact hp
          · rw [if_neg hd]
            exact hp
      · have hstep : recoveryStep d f st s = Except.error ShredError.InvalidIndex := by
          simp [recoveryStep, hidx, hltf]
        rw [hstep, except_bind_error] at h
        exact Except.noConfusion h

/-- C2.  Recovery minimality, for every input on which `try_recovery`
succeeds and every decoder satisfying the spec's recovery-correctness
contract (`hrs`: a reconstructed shard at a data position parses to a
shred whose erasure-shard index is that position — spec section 8
invariant 5, modelling the external Reed-Solomon crate): the returned
sequence contains no shred whose erasure-shard index was occupied by a
data shred in the input (mask property); every returned shred is a data
shred with the set's slot and `erasure_shard_index` in
`[0, num_data)`; and the returned shreds are in ascending position
order. -/
theorem tryRecovery_mask
    (rs : Nat → Nat → List (Option Shred) → Except ShredError (List (Option Shred)))
    (shreds res : List Shred) (s₀ codeShred : Shred)
    (h0 : shreds.head? = some s₀)
    (hc : shreds.find? Shred.isCode = some codeShred)
    (hrs : ∀ shards out,
      rs codeShred.numDataShreds codeShred.numCodingShreds shards = Except.ok out →
      ∀ pos s, pos < codeShred.numDataShreds → out[pos]? = some (some s) →
        s.erasureShardIndex = some pos)
    (hok : tryRecovery rs shreds = Except.ok res) :
    (∀ r ∈ res, r.isData = true ∧ r.slot = s₀.slot
      ∧ ∃ pos, r.erasureShardIndex = some pos ∧ pos < codeShred.numDataShreds)
    ∧ (∀ r ∈ res, ∀ s ∈ shreds, s.isData = true →
        s.erasureShardIndex ≠ r.erasureShardIndex)
    ∧ res.Pairwise (fun a b => ∃ pa pb, a.erasureShardIndex = some pa
        ∧ b.erasureShardIndex = some pb ∧ pa < pb) := by
  simp only [tryRecovery, h0, hc] at hok
  by_cases hcond : codeShred.numCodingShreds = 0
      ∨ codeShred.numDataShreds + codeShred.numCodingShreds ≤ shreds.length
  · rw [if_pos hcond] at hok
    have hres : res = [] := (Except.ok.inj hok).symm
    subst hres
    simp
  · rw [if_neg hcond] at hok
    cases hfold : shreds.foldlM
        (recoveryStep codeShred.numDataShreds
          (codeShred.numDataShreds + codeShred.numCodingShreds))
        (List.replicate codeShred.numDataShreds false,
         List.replicate (codeShred.numDataShreds + codeShred.numCodingShreds) none) with
    | error e =>
      rw [hfold, except_bind_error] at hok
      exact Except.noConfusion hok
    | ok stv =>
      rw [hfold, except_bind_ok] at hok
      cases hrs0 : rs codeShred.numDataShreds codeShred.numCodingShreds stv.2 with
      | error e =>
        rw [hrs0, except_bind_error] at hok
        exact Except.noConfusion hok
      | ok out =>
        rw [hrs0, except_bind_ok] at hok
        have hres := (Except.ok.inj hok).symm
        obtain ⟨hmasklen, hmemsh, -⟩ :=
          recoveryFold_facts codeShred.numDataShreds
            (codeShred.numDataShreds + codeShred.numCodingShreds) shreds _ stv
            (by simp) hfold
        rw [annPipeline_eq stv.1 out 0, List.filter_map] at hres
        have hfact : ∀ r ∈ res, ∃ pos, r.erasureShardIndex = some pos
            ∧ pos < codeShred.numDataShreds ∧ stv.1[pos]? = some false
            ∧ r.isData = true ∧ r.slot = s₀.slot := by
          intro r hr
          rw [hres] at hr
          obtain ⟨x, hxmem, hxr⟩ := List.mem_map.mp hr
          obtain ⟨hxann, hxpred⟩ := List.mem_filter.mp hxmem
          obtain ⟨-, hmfalse, hout⟩ := annPipeline_mem stv.1 out 0 x hxann
          simp only [Nat.sub_zero] at hmfalse hout
          have hposd : x.2 < codeShred.numDataShreds := by
            have : x.2 < stv.1.length := by
              by_contra hge
              rw [List.getElem?_eq_none (by omega)] at hmfalse
              exact Option.noConfusion hmfalse
            omega
          have hcoh := hrs stv.2 out hrs0 x.2 x.1 hposd hout
          simp only [Function.comp, Bool.and_eq_true, beq_iff_eq] at hxpred
          subst hxr
          exact ⟨x.2, hcoh, hposd, hmfalse, hxpred.1.2, hxpred.1.1⟩
        refine ⟨?_, ?_, ?_⟩
        · intro r hr
          obtain ⟨pos, hcoh, hposd, -, hdata, hslot⟩ := hfact r hr
          exact ⟨hdata, hslot, pos, hcoh, hposd⟩
        · intro r hr s hs hsdata heq
          obtain ⟨pos, hcoh, hposd, hfalse, -, -⟩ := hfact r hr
          obtain ⟨ps, hps, -, himp⟩ := hmemsh s hs
          rw [hcoh, hps] at heq
          have hpe : ps = pos := Option.some.inj heq
          subst hpe
          rw [himp hposd] at hfalse
          exact Bool.noConfusion (Option.some.inj hfalse)
        · rw [hres, List.pairwise_map]
          have hPW : ((annPipeline stv.1 out 0).filter
              ((fun shred => shred.slot == s₀.slot && shred.isData &&
                match shred.erasureShardIndex with
                | some index => decide (index < codeShred.numDataShreds)
                | none => false) ∘ Prod.fst)).Pairwise
              (fun a b => a.2 < b.2) :=
            List.Pairwise.sublist (List.filter_sublist _)
              (annPipeline_pairwise stv.1 out 0)
          refine List.Pairwise.imp_of_mem ?_ hPW
          intro a b ha hb hlt
          have hca : a.1.erasureShardIndex = some a.2 := by
            obtain ⟨haann, -⟩ := List.mem_filter.mp ha
            obtain ⟨-, hmfalse, hout⟩ := annPipeline_mem stv.1 out 0 a haann
            simp only [Nat.sub_zero] at hmfalse hout
            have : a.2 < stv.1.length := by
              by_contra hge
              rw [List.getElem?_eq_none (by omega)] at hmfalse
              exact Option.noConfusion hmfalse
            exact hrs stv.2 out hrs0 a.2 a.1 (by omega) hout
          have hcb : b.1.erasureShardIndex = some b.2 := by
            obtain ⟨hbann, -⟩ := List.mem_filter.mp hb
            obtain ⟨-, hmfalse, hout⟩ := annPipeline_mem stv.1 out 0 b hbann
            simp only [Nat.sub_zero] at hmfalse hout
            have : b.2 < stv.1.length := by
              by_contra hge
              rw [List.getElem?_eq_none (by omega)] at hmfalse
              exact Option.noConfusion hmfalse
            exact hrs stv.2 out hrs0 b.2 b.1 (by omega) hout
          exact ⟨a.2, b.2, hca, hcb, hlt⟩

/-- Witness for C2: a single-code-shred input (`num_data = 1`,
`num_parity = 1`) with a decoder reconstructing the missing data shred
at position 0. -/
theorem tryRecovery_mask_witness :
    tryRecovery (fun _ _ _ => Except.ok [some wRecShred]) [wInputCode]
        = Except.ok [wRecShred]
    ∧ ((∀ r ∈ [wRecShred], r.isData = true ∧ r.slot = wInputCode.slot
        ∧ ∃ pos, r.erasureShardIndex = some pos ∧ pos < wInputCode.numDataShreds)
      ∧ (∀ r ∈ [wRecShred], ∀ s ∈ [wInputCode], s.isData = true →
          s.erasureShardIndex ≠ r.erasureShardIndex)
      ∧ ([wRecShred] : List Shred).Pairwise (fun a b => ∃ pa pb,
          a.erasureShardIndex = some pa ∧ b.erasureShardIndex = some pb ∧ pa < pb)) := by
  refine ⟨rfl, ?_⟩
  refine tryRecovery_mask (fun _ _ _ => Except.ok [some wRecShred])
    [wInputCode] [wRecShred] wInputCode wInputCode rfl rfl ?_ rfl
  intro shards out hout pos s hpos hget
  have hout' : out = [some wRecShred] := (Except.ok.inj hout).symm
  subst hout'
  obtain rfl : pos = 0 := by
    have : wInputCode.numDataShreds = 1 := rfl
    omega
  simp only [List.getElem?_cons_zero, Option.some.injEq] at hget
  subst hget
  decide

end Agave
